import Mathlib

/-!
Shallow embedding of the gentranslate translation-patching tool.

The embedding follows the TypeScript sources:
* `TranslationJson` (setValue / getValue / flatten / diff) and `LLMTranslation`
  (generateSystemPrompt / processTranslations / translate) from `src/index.ts`;
* `SafeAsync.run` from `src/utilities/common.utils.ts`;
* the older `TranslationJsonFile.set` variant and `Batch.create` from the
  unnamed companion source file.

JavaScript objects are modelled as insertion-ordered association lists,
JavaScript `Map` accumulation as in-place-update-or-append on such lists,
and the effectful LLM backend as an explicit outcome per batch.
-/

namespace GenTranslate

/-- Model of JavaScript `s.split('.')` (string separator, no limit):
splits the character sequence at every `'.'`, keeping empty segments,
and returns `[""]`-style segments for leading/trailing/adjacent dots. -/
def splitDotAux : List Char → List Char → List (List Char)
  | [], cur => [cur.reverse]
  | c :: cs, cur =>
    if c = '.' then cur.reverse :: splitDotAux cs []
    else splitDotAux cs (c :: cur)

/-- Model of JavaScript `key.split('.')` as used by `setValue`/`getValue`. -/
def splitDot (s : String) : List String :=
  (splitDotAux s.toList []).map String.mk

/-- A node of a translation JSON tree: a string leaf or a mapping node with
insertion-ordered fields (the `Record<string, string | object>` of the source;
per the data model no arrays occur in translation trees). -/
inductive TNode where
  | str (s : String)
  | obj (fields : List (String × TNode))

/-- A JavaScript object of translation values: ordered key/value fields. -/
abbrev Obj := List (String × TNode)

/-- JavaScript property read `o[k]`: first field with the given key. -/
def objFind : Obj → String → Option TNode
  | [], _ => none
  | (k, v) :: rest, key => if k = key then some v else objFind rest key

/-- JavaScript property write `o[k] = v`: update the existing field in place
(keeping its position) or append a new field at the end. -/
def objSet : Obj → String → TNode → Obj
  | [], key, val => [(key, val)]
  | (k, v) :: rest, key, val =>
    if k = key then (k, val) :: rest else (k, v) :: objSet rest key val

/-- `TranslationJson.isFlat`: `Object.values(this.json).every(v => typeof v === 'string')`. -/
def isFlat (o : Obj) : Bool :=
  o.all fun kv => match kv.2 with | .str _ => true | .obj _ => false

/-- The `TranslationKeyValue` class of `src/index.ts`: a (key, value) pair. -/
structure TranslationKeyValue where
  key : String
  value : String
deriving DecidableEq, Repr

/-- `TranslationJson.setJsonValue(obj, keys, value)` from `src/index.ts`:
recursive descent on the split key; a missing or non-object intermediate
field is replaced by a fresh empty object before descending. -/
def setJsonValue (o : Obj) (keys : List String) (value : TNode) : Obj :=
  match keys with
  | [] => o
  | [k] => objSet o k value
  | k :: rest =>
    let child : Obj :=
      match objFind o k with
      | some (.obj fields) => fields
      | _ => []
    objSet o k (.obj (setJsonValue child rest value))

/-- `TranslationJson.setValue(key, value)` from `src/index.ts`: on a flat
tree the key is written directly as a top-level property; otherwise the key
is split on `'.'` and written by recursive descent. -/
def setValue (o : Obj) (key : String) (value : String) : Obj :=
  if isFlat o then objSet o key (.str value)
  else setJsonValue o (splitDot key) (.str value)

/-- `TranslationJson.getJsonValue(obj, keys)` from `src/index.ts`: returns
the string leaf at the path, or `none` for an empty path, a missing or
non-object intermediate field, or a non-string final field. -/
def getJsonValue (o : Obj) (keys : List String) : Option String :=
  match keys with
  | [] => none
  | [k] =>
    match objFind o k with
    | some (.str s) => some s
    | _ => none
  | k :: rest =>
    match objFind o k with
    | some (.obj fields) => getJsonValue fields rest
    | _ => none

/-- `TranslationJson.getValue(key)` from `src/index.ts`: on a flat tree the
key is read directly (empty string when absent or not a string); otherwise
the key is split on `'.'` and resolved by descent, `?? ''` on failure. -/
def getValue (o : Obj) (key : String) : TranslationKeyValue :=
  if isFlat o then
    { key := key
      value :=
        match objFind o key with
        | some (.str s) => s
        | _ => "" }
  else { key := key, value := (getJsonValue o (splitDot key)).getD "" }

/-- `TranslationJsonFile.set(obj, keys, value)` from the unnamed companion
source: the purely recursive set variant (identical recursion to
`setJsonValue`, but reached without any flat-tree shortcut). -/
def fileSet (o : Obj) (keys : List String) (value : TNode) : Obj :=
  match keys with
  | [] => o
  | [k] => objSet o k value
  | k :: rest =>
    let child : Obj :=
      match objFind o k with
      | some (.obj fields) => fields
      | _ => []
    objSet o k (.obj (fileSet child rest value))

/-- `TranslationJsonFile.setValue(key, value)` from the unnamed companion
source: always splits the key on `'.'` and descends. -/
def fileSetValue (o : Obj) (key : String) (value : String) : Obj :=
  fileSet o (splitDot key) (.str value)

/-- JavaScript `Map.prototype.set` on an insertion-ordered key/value list:
overwrite the value at the key's original position, or append. -/
def mapSet (m : List (String × String)) (k v : String) : List (String × String) :=
  match m with
  | [] => [(k, v)]
  | (k', v') :: rest => if k' = k then (k', v) :: rest else (k', v') :: mapSet rest k v

/-- JavaScript `Map.prototype.get`: value at the key, or `none`. -/
def mapGet : List (String × String) → String → Option String
  | [], _ => none
  | (k', v') :: rest, k => if k' = k then some v' else mapGet rest k

/-- The dotted key built by `flattenJson`:
`parentKeys.length > 0 ? parentKeys.join('.') + '.' + key : key`. -/
def joinKey (parentKeys : List String) (key : String) : String :=
  if parentKeys.isEmpty then key
  else String.intercalate "." parentKeys ++ "." ++ key

/-- `TranslationJson.flattenJson(object, parentKeys, result)` from
`src/index.ts`: depth-first traversal in field order; object fields recurse
with the key pushed onto `parentKeys`, string fields are written into the
shared result map under their dotted key. -/
def flattenJson (o : Obj) (parentKeys : List String)
    (result : List (String × String)) : List (String × String) :=
  match o with
  | [] => result
  | (k, .str s) :: rest =>
    flattenJson rest parentKeys (mapSet result (joinKey parentKeys k) s)
  | (k, .obj fields) :: rest =>
    flattenJson rest parentKeys (flattenJson fields (parentKeys ++ [k]) result)
termination_by sizeOf o
decreasing_by all_goals simp_wf <;> omega

/-- `TranslationJson.flatten()` from `src/index.ts`. -/
def flatten (o : Obj) : List (String × String) :=
  flattenJson o [] []

/-- `TranslationJson.diff(other)` from `src/index.ts`: walk `self`'s
flattened map emitting self-sourced entries for keys absent from or changed
in `other`, then walk `other`'s flattened map emitting other-sourced
entries for keys absent from `self`. -/
def diff (base other : Obj) : List TranslationKeyValue :=
  let selfMap := flatten base
  let otherMap := flatten other
  let first := selfMap.foldl
    (fun acc kv =>
      match mapGet otherMap kv.1 with
      | none => acc ++ [⟨kv.1, kv.2⟩]
      | some otherValue =>
        if otherValue ≠ kv.2 then acc ++ [⟨kv.1, kv.2⟩] else acc)
    []
  otherMap.foldl
    (fun acc kv =>
      if mapGet selfMap kv.1 = none then acc ++ [⟨kv.1, kv.2⟩] else acc)
    first

/-- Outcome of `SafeAsync.run` from `src/utilities/common.utils.ts`:
`result` and `errors` are the fields of the returned object, `recorded` is
the public `this.errors` array after the run. -/
structure RunResult (T E : Type) where
  result : Option T
  errors : List E
  recorded : List E
deriving DecidableEq, Repr

/-- The retry loop body of `SafeAsync.run`. The async operation is embedded
as a pure function from the attempt number to an `Except` outcome; `i` is
the loop counter and `acc` the errors pushed onto `this.errors` so far.
On success the returned object carries `errors: []`; on the last failed
attempt the loop breaks and falls through to
`return ⟨null, this.errors⟩`. -/
def runAux (fn : Nat → Except E T) (retries : Nat) (i : Nat) (acc : List E) :
    RunResult T E :=
  if _h : i < retries then
    match fn i with
    | .ok v => ⟨some v, [], acc⟩
    | .error e =>
      if i = retries - 1 then ⟨none, acc ++ [e], acc ++ [e]⟩
      else runAux fn retries (i + 1) (acc ++ [e])
  else ⟨none, acc, acc⟩
termination_by retries - i

/-- `SafeAsync.run()` from `src/utilities/common.utils.ts` (the backoff
sleep between attempts has no effect on the returned data and is elided). -/
def safeAsyncRun (fn : Nat → Except E T) (retries : Nat) : RunResult T E :=
  runAux fn retries 0 []

/-- The default retry budget of the `SafeAsync` constructor. -/
def defaultRetries : Nat := 3

/-- `LLMTranslation.LLM_SYSTEM_PROMPT` from `src/index.ts`, verbatim. -/
def LLM_SYSTEM_PROMPT : String :=
  "You are a professional translator for a Trade-in POS (Point of Sale) SaaS application. Translate the following UI text strings from English to \x7b:language\x7d.

Domain context:
- This is a buyback/trade-in platform where customers sell used items (phones, electronics, etc.)
- Offer types describe HOW items are traded in (in-store, by mail, etc.)
- Use standard/formal register appropriate for business software

Translation rules:
1. PRESERVE placeholders exactly as-is: \x7bvalue\x7d, \x7btype\x7d, \x7b0\x7d, \x7b1\x7d, etc. — do not translate content inside curly braces
2. TRANSLATE all descriptive English terms including offer types, conditions, and UI labels
3. Only keep in English: proper brand names (Apple, Samsung), integration brand names (BackMarket, ShareASale, Tremendous, DataFeed), model numbers (iPhone 15), and code identifiers
4. Output ONLY a valid JSON object — no markdown, no explanation, no extra text

Domain glossary (MUST be translated, not kept in English):
- \"In-Store\" → physical store location (e.g., Indonesian: \"di toko\")
- \"Mail-in\" → send by postal mail (e.g., Indonesian: \"kirim pos\")\x20\x20
- \"Bulk Quote\" → wholesale/volume pricing (e.g., Indonesian: \"penawaran grosir\")
- \"Easy Offer\" → simple/quick offer (e.g., Indonesian: \"penawaran mudah\")
- \"Trade-in\" → exchange old item for value (translate to local equivalent)
- \"Offer\" → proposal/bid (translate appropriately)
- \"Markup\"/\"Mark Up\" → increase in price (e.g., Indonesian: \"Naikan Harga\")
- \"Mark Down\"/\"Mark Down\" → decrease in price (e.g., Indonesian: \"Turunkan Harga\")

Example of CORRECT vs INCORRECT translation (e.g. Indonesian):
- WRONG: \"In-Store Offer\" → \"Penawaran In-Store\" (kept English term)
- RIGHT: \"In-Store Offer\" → \"Penawaran di Toko\" (fully translated)

Input format: JSON object where keys are numeric indices and values are strings to translate.
Output format: JSON object with the same numeric keys and fully translated strings as values.
Input:\n"

/-- The `'\x7b:language\x7d'` placeholder replaced by `generateSystemPrompt`. -/
def languagePlaceholder : String := "\x7b:language\x7d"

/-- Model of JavaScript `s.toLowerCase()`: character-wise lower-casing. -/
def toLowerCase (s : String) : String :=
  String.mk (s.toList.map Char.toLower)

/-- Model of JavaScript `s.replace(pat, repl)` with a string pattern:
replaces only the first occurrence (restoring later occurrences by
rejoining the split tail with the pattern). -/
def replaceFirst (s pat repl : String) : String :=
  match s.splitOn pat with
  | [] => s
  | [_] => s
  | first :: rest => first ++ repl ++ String.intercalate pat rest

/-- `LLMTranslation.generateSystemPrompt(languageName)` from `src/index.ts`:
substitutes the language name into the template, except that a name whose
lower-casing is `"xhosa"` is swapped for `"English"`. -/
def generateSystemPrompt (languageName : String) : String :=
  let isXhosa := toLowerCase languageName == "xhosa"
  replaceFirst LLM_SYSTEM_PROMPT languagePlaceholder
    (if isXhosa then "English" else languageName)

/-- The success path of `LLMTranslation.processTranslations` from
`src/index.ts`: `translations.map((t, i) => new TranslationKeyValue(t.key,
result[String(i)] ?? t.value))`, with the parsed backend response embedded
as a string-keyed record. -/
def processTranslations (translations : List TranslationKeyValue)
    (result : List (String × String)) : List TranslationKeyValue :=
  translations.mapIdx fun i t =>
    ⟨t.key, (mapGet result (toString i)).getD t.value⟩

/-- Outcome of one `sendLLMRequest` call, per batch: the promise rejects
(network error, non-string content, or a JSON parse error), or the parsed
content is falsy (e.g. the JSON text `"null"`, taking the `if (!result)`
branch), or it is a usable string-keyed record. -/
inductive LLMOutcome where
  | raise
  | falsy
  | ok (response : List (String × String))

/-- Ceiling division `Math.ceil(len / size)` on naturals (for positive
`size`). -/
def ceilDiv (len size : Nat) : Nat := (len + size - 1) / size

/-- The batch-splitting step of `LLMTranslation.translate` from
`src/index.ts`: `Array.from({length: Math.ceil(len/size)}).map((_, i) =>
translations.slice(i*size, (i+1)*size))`. -/
def batches (translations : List α) (batchSize : Nat) : List (List α) :=
  (List.range (ceilDiv translations.length batchSize)).map fun i =>
    ((translations.drop (i * batchSize)).take batchSize)

/-- The batch loop of `LLMTranslation.translate` from `src/index.ts`: each
batch's backend outcome is read off `backend` at the batch's index; a
rejection propagates out of the loop (there is no try/catch), a falsy
parse skips the batch, and a usable response contributes its mapped
entries. -/
def translateGo (backend : Nat → LLMOutcome) :
    List (List TranslationKeyValue) → Nat → List TranslationKeyValue →
    Except Unit (List TranslationKeyValue)
  | [], _, acc => .ok acc
  | b :: rest, idx, acc =>
    match backend idx with
    | .raise => .error ()
    | .falsy => translateGo backend rest (idx + 1) acc
    | .ok response => translateGo backend rest (idx + 1) (acc ++ processTranslations b response)

/-- `LLMTranslation.translate(translations, options)` from `src/index.ts`,
with the per-call backend behaviour passed in explicitly. -/
def translate (translations : List TranslationKeyValue) (batchSize : Nat)
    (backend : Nat → LLMOutcome) : Except Unit (List TranslationKeyValue) :=
  translateGo backend (batches translations batchSize) 0 []

/-- The loop of `Batch.create` from the unnamed companion source:
`for (i = 0; i < items.length; i += batchSize) push(items.slice(i, i + batchSize))`.
The `0 < batchSize` guard keeps the model total (with a zero batch size the
JavaScript loop never terminates). -/
def batchCreateGo (items : List α) (batchSize i : Nat) (acc : List (List α)) :
    List (List α) :=
  if _h : 0 < batchSize ∧ i < items.length then
    batchCreateGo items batchSize (i + batchSize)
      (acc ++ [(items.drop i).take batchSize])
  else acc
termination_by items.length - i

/-- `Batch.create(options)` from the unnamed companion source. -/
def batchCreate (items : List α) (batchSize : Nat) : List (List α) :=
  batchCreateGo items batchSize 0 []

/-- Spec-side predicate for the diff characterization: a base entry is
emitted when its key is absent from the other map or carries a different
value there. -/
def changedInOther (otherMap : List (String × String)) (kv : String × String) : Bool :=
  match mapGet otherMap kv.1 with
  | none => true
  | some otherValue => decide (otherValue ≠ kv.2)

/-- The base tree of the spec's diff scenario:
`{"a":"Hello","b":{"c":"World"}}`. -/
def exampleBase : Obj :=
  [("a", .str "Hello"), ("b", .obj [("c", .str "World")])]

/-- The patched tree of the spec's diff scenario:
`{"a":"Hi","b":{"c":"World"},"d":"New"}`. -/
def examplePatched : Obj :=
  [("a", .str "Hi"), ("b", .obj [("c", .str "World")]), ("d", .str "New")]

/-- Spec-side round trip: apply every entry of `flatten o`, in order, via
`setValue` onto an initially empty tree. -/
def roundTrip (o : Obj) : Obj :=
  (flatten o).foldl (fun acc kv => setValue acc kv.1 kv.2) []

/-- A flat map viewed as a translation tree of string leaves. -/
def strOf (m : List (String × String)) : Obj :=
  m.map fun kv => (kv.1, .str kv.2)

/-- The keys of a flat map, in order. -/
def mapKeys (m : List (String × String)) : List String :=
  m.map Prod.fst

/-- Spec-side resolution relation: the path descends through nested mapping
nodes and ends at a string leaf. -/
inductive Resolves : Obj → List String → String → Prop where
  | leaf : ∀ {o : Obj} {k s}, objFind o k = some (.str s) → Resolves o [k] s
  | node : ∀ {o : Obj} {k ks s fields}, objFind o k = some (.obj fields) →
      Resolves fields ks s → Resolves o (k :: ks) s

/-- The path `getValue` walks for a key: the literal key on a flat tree,
the dot-split segments otherwise. -/
def pathOf (o : Obj) (key : String) : List String :=
  if isFlat o then [key] else splitDot key

/-! Theorems. -/

theorem foldl_push_eq_filter_map {α β : Type} (g : α → Bool) (f : α → β) :
    ∀ (l : List α) (init : List β),
      l.foldl (fun acc x => if g x then acc ++ [f x] else acc) init
        = init ++ (l.filter g).map f := by
  intro l
  induction l with
  | nil => intro init; simp
  | cons x xs ih =>
    intro init
    by_cases h : g x <;>
      simp [List.filter_cons, h, ih]

theorem diff_body1_eq (m : List (String × String)) :
    (fun (acc : List TranslationKeyValue) (kv : String × String) =>
      match mapGet m kv.1 with
      | none => acc ++ [⟨kv.1, kv.2⟩]
      | some otherValue =>
        if otherValue ≠ kv.2 then acc ++ [⟨kv.1, kv.2⟩] else acc)
    = fun acc kv =>
        if changedInOther m kv then acc ++ [⟨kv.1, kv.2⟩] else acc := by
  funext acc kv
  cases h : mapGet m kv.1 with
  | none => simp [changedInOther, h]
  | some ov => by_cases hv : ov = kv.2 <;> simp [changedInOther, h, hv]

theorem diff_body2_eq (m : List (String × String)) :
    (fun (acc : List TranslationKeyValue) (kv : String × String) =>
      if mapGet m kv.1 = none then acc ++ [⟨kv.1, kv.2⟩] else acc)
    = fun acc kv =>
        if (mapGet m kv.1).isNone then acc ++ [⟨kv.1, kv.2⟩] else acc := by
  funext acc kv
  cases h : mapGet m kv.1 <;> simp [h]

/-- C1: `diff(base, other)` emits, in base flatten order, one entry per key
of base that is absent from or differs in other, carrying base's own value,
followed by entries for keys present only in other carrying other's value;
on the spec's scenario trees the diff is `[("a","Hello"), ("d","New")]`. -/
theorem diff_spec :
    (∀ base other : Obj,
      diff base other =
        ((flatten base).filter (changedInOther (flatten other))).map
          (fun kv => ⟨kv.1, kv.2⟩) ++
        ((flatten other).filter
          (fun kv => (mapGet (flatten base) kv.1).isNone)).map
          (fun kv => ⟨kv.1, kv.2⟩)) ∧
    diff exampleBase examplePatched = [⟨"a", "Hello"⟩, ⟨"d", "New"⟩] := by
  constructor
  · intro base other
    simp only [diff]
    rw [diff_body1_eq, diff_body2_eq, foldl_push_eq_filter_map,
      foldl_push_eq_filter_map, List.nil_append]
  · simp only [diff, exampleBase, examplePatched, flatten, flattenJson,
      mapSet, joinKey]
    decide

theorem setJsonValue_eq_fileSet (keys : List String) :
    ∀ (o : Obj) (value : TNode), setJsonValue o keys value = fileSet o keys value := by
  induction keys with
  | nil => intro o value; rfl
  | cons k rest ih =>
    intro o value
    cases rest with
    | nil => rfl
    | cons r rs => simp only [setJsonValue, fileSet, ih]

/-- C5 counterexample: on the flat tree `{"x":"y"}` and the dotted key
`"a.b"`, the flat-detecting `TranslationJson.setValue` and the purely
recursive `TranslationJsonFile.set` produce different trees (the former
writes the literal top-level key `"a.b"`, the latter nests `{"a":{"b":…}}`),
refuting the claim that the two variants agree on every tree. -/
theorem setValue_variants_counterexample :
    setValue [("x", TNode.str "y")] "a.b" "z"
      ≠ fileSetValue [("x", TNode.str "y")] "a.b" "z" := by
  intro h
  have h1 : objFind (fileSetValue [("x", TNode.str "y")] "a.b" "z") "a.b"
      = some (TNode.str "z") := by rw [← h]; rfl
  have h2 : (none : Option TNode) = some (TNode.str "z") := h1
  exact Option.noConfusion h2

/-- C5 (amended): the two set variants produce identical trees whenever the
input tree is not flat or the key contains no dot (splits into a single
segment); only a flat tree combined with a dotted key separates them. -/
theorem setValue_variants_agree (o : Obj) (key value : String)
    (h : isFlat o = false ∨ splitDot key = [key]) :
    setValue o key value = fileSetValue o key value := by
  cases h with
  | inl hn => simp [setValue, hn, fileSetValue, setJsonValue_eq_fileSet]
  | inr hs =>
    by_cases hf : isFlat o
    · simp [setValue, hf, fileSetValue, hs, fileSet]
    · simp [setValue, hf, fileSetValue, setJsonValue_eq_fileSet]

/-- Concrete instance of the amended C5 statement on a non-flat tree. -/
theorem setValue_variants_agree_witness :
    setValue [("b", TNode.obj [])] "a.b" "z"
      = fileSetValue [("b", TNode.obj [])] "a.b" "z" :=
  setValue_variants_agree [("b", TNode.obj [])] "a.b" "z" (Or.inl rfl)

/-- C9: the generated system prompt substitutes the target language's
display name into the instructional preamble, except that a name whose
lower-casing is `"xhosa"` is substituted by `"English"` instead. -/
theorem generateSystemPrompt_spec (name : String) :
    (toLowerCase name = "xhosa" →
      generateSystemPrompt name
        = replaceFirst LLM_SYSTEM_PROMPT languagePlaceholder "English") ∧
    (toLowerCase name ≠ "xhosa" →
      generateSystemPrompt name
        = replaceFirst LLM_SYSTEM_PROMPT languagePlaceholder name) := by
  constructor <;> intro h <;> simp [generateSystemPrompt, h]

/-- Concrete instance of C9 at the resolved display name of `xh.json`. -/
theorem generateSystemPrompt_spec_witness :
    generateSystemPrompt "Xhosa"
      = replaceFirst LLM_SYSTEM_PROMPT languagePlaceholder "English" :=
  (generateSystemPrompt_spec "Xhosa").1 (by decide)

/-- C2 (code evaluated at the failing input): with two single-entry batches
whose first backend call rejects and whose second would succeed,
`LLMTranslation.translate` propagates the rejection — no later batch is
processed and no concatenation of successful outputs is returned — even
though the second batch on its own maps to a successful output. -/
theorem translate_raise_aborts :
    translate [⟨"a", "Hello"⟩, ⟨"d", "New"⟩] 1
        (fun i => if i = 0 then .raise else .ok [("0", "Neu")])
      = .error () ∧
    processTranslations [⟨"d", "New"⟩] [("0", "Neu")] = [⟨"d", "Neu"⟩] := by
  constructor
  · rfl
  · rfl

theorem runAux_all_fail {T E : Type} (fn : Nat → Except E T) (N : Nat)
    (e : Nat → E) :
    ∀ (d i : Nat) (acc : List E), N - i = d →
      (∀ j, i ≤ j → j < N → fn j = .error (e j)) →
      runAux fn N i acc
        = ⟨none, acc ++ (List.range' i d).map e,
            acc ++ (List.range' i d).map e⟩ := by
  intro d
  induction d with
  | zero =>
    intro i acc hd _h
    have hni : ¬ i < N := by omega
    rw [runAux]
    simp [hni]
  | succ d ih =>
    intro i acc hd h
    have hi : i < N := by omega
    rw [runAux]
    rw [dif_pos hi]
    simp only [h i le_rfl hi]
    by_cases hlast : i = N - 1
    · have hd0 : d = 0 := by omega
      subst hd0
      simp [hlast, List.range'_succ]
    · rw [if_neg hlast]
      rw [ih (i + 1) (acc ++ [e i]) (by omega)
        (fun j hj1 hj2 => h j (by omega) hj2)]
      simp [List.range'_succ]

theorem runAux_fail_then_ok {T E : Type} (fn : Nat → Except E T) (N : Nat)
    (e : Nat → E) (k : Nat) (v : T) (hk : k < N) (hok : fn k = .ok v) :
    ∀ (d i : Nat) (acc : List E), k - i = d → i ≤ k →
      (∀ j, i ≤ j → j < k → fn j = .error (e j)) →
      runAux fn N i acc = ⟨some v, [], acc ++ (List.range' i d).map e⟩ := by
  intro d
  induction d with
  | zero =>
    intro i acc hd hik _h
    have hik' : i = k := by omega
    subst hik'
    rw [runAux]
    rw [dif_pos hk, hok]
    simp
  | succ d ih =>
    intro i acc hd hik h
    have hikk : i < k := by omega
    have hiN : i < N := by omega
    rw [runAux]
    rw [dif_pos hiN]
    simp only [h i le_rfl hikk]
    have hne : i ≠ N - 1 := by omega
    rw [if_neg hne]
    rw [ih (i + 1) (acc ++ [e i]) (by omega) (by omega)
      (fun j hj1 hj2 => h j (by omega) hj2)]
    simp [List.range'_succ]

/-- C4: `SafeAsync.run` never raises; when the operation fails on every one
of the `N` budgeted attempts it returns a null result with the `N`
accumulated errors both returned and recorded, and when it fails on the
first `k` attempts and succeeds on attempt `k+1 ≤ N` it returns the success
value (with an empty returned error list) and the `k` recorded errors. -/
theorem safeAsyncRun_spec {T E : Type} (fn : Nat → Except E T) (N : Nat)
    (e : Nat → E) :
    ((∀ i, i < N → fn i = .error (e i)) →
      safeAsyncRun fn N
        = ⟨none, (List.range N).map e, (List.range N).map e⟩) ∧
    (∀ k v, k < N → (∀ i, i < k → fn i = .error (e i)) → fn k = .ok v →
      safeAsyncRun fn N = ⟨some v, [], (List.range k).map e⟩) := by
  constructor
  · intro h
    have := runAux_all_fail fn N e N 0 [] (by omega)
      (fun j _ hj2 => h j hj2)
    simpa [safeAsyncRun, List.range_eq_range'] using this
  · intro k v hk hfail hok
    have := runAux_fail_then_ok fn N e k v hk hok k 0 [] (by omega)
      (by omega) (fun j _ hj2 => hfail j hj2)
    simpa [safeAsyncRun, List.range_eq_range'] using this

/-- Concrete instances of C4: an operation failing twice then succeeding
under the default budget of 3, and an operation failing on all 3 attempts. -/
theorem safeAsyncRun_spec_witness :
    safeAsyncRun
        (fun i => if i < 2 then Except.error ("E" ++ toString i)
          else Except.ok "done") defaultRetries
      = ⟨some "done", [], (List.range 2).map (fun i => "E" ++ toString i)⟩ ∧
    safeAsyncRun
        (fun i => (Except.error ("E" ++ toString i) : Except String String))
        defaultRetries
      = ⟨none, (List.range 3).map (fun i => "E" ++ toString i),
          (List.range 3).map (fun i => "E" ++ toString i)⟩ :=
  ⟨(safeAsyncRun_spec _ defaultRetries (fun i => "E" ++ toString i)).2 2 "done"
      (by decide) (fun i hi => by simp [hi]) rfl,
   (safeAsyncRun_spec _ defaultRetries (fun i => "E" ++ toString i)).1
      (fun i _hi => rfl)⟩

/-- C7: on a successful backend response, the client's output has one entry
per input entry in the same order, each keeping the input entry's key, with
value the response's string at the entry's numeric index when present and
the input entry's original value when the response omits that index. -/
theorem processTranslations_spec (ts : List TranslationKeyValue)
    (resp : List (String × String)) :
    (processTranslations ts resp).length = ts.length ∧
    ∀ i (h1 : i < ts.length) (h2 : i < (processTranslations ts resp).length),
      (processTranslations ts resp).get ⟨i, h2⟩
        = ⟨(ts.get ⟨i, h1⟩).key,
            (mapGet resp (toString i)).getD (ts.get ⟨i, h1⟩).value⟩ := by
  constructor
  · simp [processTranslations]
  · intro i h1 h2
    simp [processTranslations, List.get_mapIdx ts _ i h1]

/-- Concrete instance of C7: a two-entry batch whose response carries only
index 0 keeps the second entry's original value. -/
theorem processTranslations_spec_witness :
    (processTranslations [⟨"k1", "v1"⟩, ⟨"k2", "v2"⟩] [("0", "t1")]).length = 2 ∧
    (processTranslations [⟨"k1", "v1"⟩, ⟨"k2", "v2"⟩] [("0", "t1")]).get
        ⟨0, by decide⟩ = ⟨"k1", "t1"⟩ ∧
    (processTranslations [⟨"k1", "v1"⟩, ⟨"k2", "v2"⟩] [("0", "t1")]).get
        ⟨1, by decide⟩ = ⟨"k2", "v2"⟩ :=
  ⟨(processTranslations_spec [⟨"k1", "v1"⟩, ⟨"k2", "v2"⟩] [("0", "t1")]).1,
   ((processTranslations_spec [⟨"k1", "v1"⟩, ⟨"k2", "v2"⟩] [("0", "t1")]).2
      0 (by decide) (by decide)).trans (by decide),
   ((processTranslations_spec [⟨"k1", "v1"⟩, ⟨"k2", "v2"⟩] [("0", "t1")]).2
      1 (by decide) (by decide)).trans (by decide)⟩

theorem ceilDiv_zero (n : Nat) : ceilDiv 0 n = 0 := by
  cases n with
  | zero => rfl
  | succ m => exact Nat.div_eq_of_lt (by omega)

theorem ceilDiv_pos_step (L n : Nat) (hn : 0 < n) (hL : 0 < L) :
    ceilDiv L n = ceilDiv (L - n) n + 1 := by
  unfold ceilDiv
  rcases le_or_lt L n with h | h
  · have h1 : L - n = 0 := by omega
    have h2 : (0 + n - 1) / n = 0 := Nat.div_eq_of_lt (by omega)
    have h3 : (L + n - 1) / n = 1 := Nat.div_eq_of_lt_le (by omega) (by omega)
    rw [h1, h2, h3]
  · have heq : L + n - 1 = (L - n + n - 1) + n := by omega
    rw [heq, Nat.add_div_right _ hn]

theorem batches_nil {α : Type} (n : Nat) : batches ([] : List α) n = [] := by
  simp [batches, ceilDiv_zero]

theorem batches_cons {α : Type} (l : List α) (n : Nat) (hn : 0 < n)
    (hl : l ≠ []) : batches l n = l.take n :: batches (l.drop n) n := by
  have hL : 0 < l.length := List.length_pos.mpr hl
  unfold batches
  rw [List.length_drop, ceilDiv_pos_step l.length n hn hL,
    List.range_succ_eq_map]
  simp only [List.map_cons, List.map_map]
  congr 1
  · simp
  · refine List.map_congr_left fun i _ => ?_
    simp only [Function.comp_apply]
    rw [List.drop_drop]
    congr 2
    rw [Nat.succ_mul]
    omega

theorem batches_flatten {α : Type} (n : Nat) (hn : 0 < n) :
    ∀ (L : Nat) (l : List α), l.length ≤ L → (batches l n).flatten = l := by
  intro L
  induction L with
  | zero =>
    intro l hl
    have : l = [] := List.eq_nil_of_length_eq_zero (by omega)
    subst this
    simp [batches_nil]
  | succ L ih =>
    intro l hl
    rcases eq_or_ne l [] with rfl | hne
    · simp [batches_nil]
    · rw [batches_cons l n hn hne, List.flatten_cons,
        ih (l.drop n) (by simp [List.length_drop]; omega),
        List.take_append_drop]

theorem batchCreateGo_eq {α : Type} (n : Nat) (hn : 0 < n) :
    ∀ (d : Nat) (l : List α) (i : Nat) (acc : List (List α)),
      l.length - i ≤ d →
      batchCreateGo l n i acc = acc ++ batches (l.drop i) n := by
  intro d
  induction d with
  | zero =>
    intro l i acc hd
    rw [batchCreateGo]
    have hni : ¬ (0 < n ∧ i < l.length) := by omega
    rw [dif_neg hni, List.drop_eq_nil_of_le (by omega), batches_nil,
      List.append_nil]
  | succ d ih =>
    intro l i acc hd
    by_cases hi : i < l.length
    · rw [batchCreateGo, dif_pos ⟨hn, hi⟩,
        ih l (i + n) _ (by omega),
        batches_cons (l.drop i) n hn
          (by simp [List.drop_eq_nil_iff]; omega),
        List.drop_drop]
      simp
    · rw [batchCreateGo]
      have hni : ¬ (0 < n ∧ i < l.length) := by omega
      rw [dif_neg hni, List.drop_eq_nil_of_le (by omega), batches_nil,
        List.append_nil]

/-- C8: for a chunk size `n > 0`, both batching implementations (the inline
slicing in `LLMTranslation.translate` and `Batch.create`) agree and produce
`ceil(L/n)` contiguous chunks in order, every chunk except possibly the
last having exactly `n` elements, whose concatenation is the input list. -/
theorem batching_spec {α : Type} (l : List α) (n : Nat) (hn : 0 < n) :
    batchCreate l n = batches l n ∧
    (batches l n).length = ceilDiv l.length n ∧
    (∀ i (h : i < (batches l n).length), i + 1 < (batches l n).length →
      ((batches l n).get ⟨i, h⟩).length = n) ∧
    (batches l n).flatten = l := by
  refine ⟨?_, ?_, ?_, ?_⟩
  · rw [batchCreate, batchCreateGo_eq n hn l.length l 0 [] (by omega)]
    simp only [List.drop_zero, List.nil_append]
  · simp [batches]
  · intro i h hnext
    have hlen : (batches l n).length = ceilDiv l.length n := by simp [batches]
    have hget : (batches l n).get ⟨i, h⟩ = (l.drop (i * n)).take n := by
      simp [batches, List.get_eq_getElem]
    rw [hget, List.length_take, List.length_drop]
    have hceil : i + 2 ≤ ceilDiv l.length n := by omega
    have hmul : (i + 2) * n ≤ l.length + n - 1 := by
      have := (Nat.le_div_iff_mul_le hn).mp (by
        unfold ceilDiv at hceil
        exact hceil)
      exact this
    have hx : (i + 2) * n = i * n + n + n := by ring
    omega
  · exact batches_flatten n hn l.length l le_rfl

/-- Concrete instance of C8 with a five-element list and chunk size 2. -/
theorem batching_spec_witness :
    batchCreate [1, 2, 3, 4, 5] 2 = batches [1, 2, 3, 4, 5] 2 ∧
    (batches [1, 2, 3, 4, 5] 2).length = ceilDiv 5 2 ∧
    (batches [1, 2, 3, 4, 5] 2).flatten = [1, 2, 3, 4, 5] :=
  ⟨(batching_spec [1, 2, 3, 4, 5] 2 (by decide)).1,
   (batching_spec [1, 2, 3, 4, 5] 2 (by decide)).2.1,
   (batching_spec [1, 2, 3, 4, 5] 2 (by decide)).2.2.2⟩

theorem mapKeys_mapSet (m : List (String × String)) (k v : String) :
    mapKeys (mapSet m k v)
      = if k ∈ mapKeys m then mapKeys m else mapKeys m ++ [k] := by
  induction m with
  | nil => simp [mapSet, mapKeys]
  | cons kv rest ih =>
    obtain ⟨k', v'⟩ := kv
    by_cases h : k' = k
    · simp [mapSet, mapKeys, h]
    · simp only [mapSet, if_neg h, mapKeys, List.map_cons] at ih ⊢
      rw [ih]
      have hne : ¬ k = k' := fun hx => h hx.symm
      by_cases hm : k ∈ List.map Prod.fst rest <;>
        simp [hm, hne]

theorem nodup_mapKeys_mapSet (m : List (String × String)) (k v : String)
    (h : (mapKeys m).Nodup) : (mapKeys (mapSet m k v)).Nodup := by
  rw [mapKeys_mapSet]
  by_cases hk : k ∈ mapKeys m
  · simpa [hk] using h
  · simpa [hk, List.nodup_append] using h

theorem nodup_mapKeys_flattenJson :
    ∀ (o : Obj) (pks : List String) (r : List (String × String)),
      (mapKeys r).Nodup → (mapKeys (flattenJson o pks r)).Nodup := by
  intro o pks r
  induction o, pks, r using flattenJson.induct with
  | case1 pks r => intro h; simpa [flattenJson] using h
  | case2 pks r k s rest ih =>
    intro h
    simp only [flattenJson]
    exact ih (nodup_mapKeys_mapSet _ _ _ h)
  | case3 pks r k fields rest ih1 ih2 =>
    intro h
    simp only [flattenJson]
    exact ih2 (ih1 h)

theorem isFlat_strOf (m : List (String × String)) : isFlat (strOf m) = true := by
  induction m with
  | nil => rfl
  | cons kv rest ih => simpa [isFlat, strOf, List.all_cons] using ih

theorem objSet_strOf (m : List (String × String)) (k v : String) :
    objSet (strOf m) k (.str v) = strOf (mapSet m k v) := by
  induction m with
  | nil => rfl
  | cons kv rest ih =>
    obtain ⟨k', v'⟩ := kv
    by_cases h : k' = k
    · simp [strOf, objSet, mapSet, h]
    · simp only [strOf, List.map_cons] at ih ⊢
      simp only [objSet, mapSet, if_neg h, List.map_cons]
      rw [ih]

theorem setValue_strOf (m : List (String × String)) (k v : String) :
    setValue (strOf m) k v = strOf (mapSet m k v) := by
  simp [setValue, isFlat_strOf, objSet_strOf]

theorem foldl_setValue_strOf (es : List (String × String)) :
    ∀ m, es.foldl (fun acc kv => setValue acc kv.1 kv.2) (strOf m)
      = strOf (es.foldl (fun acc kv => mapSet acc kv.1 kv.2) m) := by
  induction es with
  | nil => intro m; rfl
  | cons kv rest ih =>
    intro m
    rw [List.foldl_cons, List.foldl_cons, setValue_strOf, ih]

theorem mapSet_append_of_not_mem (acc : List (String × String)) (k v : String)
    (h : k ∉ mapKeys acc) : mapSet acc k v = acc ++ [(k, v)] := by
  induction acc with
  | nil => rfl
  | cons kv rest ih =>
    obtain ⟨k', v'⟩ := kv
    simp only [mapKeys, List.map_cons, List.mem_cons] at h
    push_neg at h
    rw [mapSet, if_neg (fun hx => h.1 hx.symm), ih h.2]
    rfl

theorem foldl_mapSet_fresh :
    ∀ (m acc : List (String × String)), (mapKeys m).Nodup →
      (∀ k, k ∈ mapKeys m → k ∉ mapKeys acc) →
      m.foldl (fun a kv => mapSet a kv.1 kv.2) acc = acc ++ m := by
  intro m
  induction m with
  | nil => intro acc _ _; simp
  | cons kv rest ih =>
    intro acc hnd hdisj
    obtain ⟨k, v⟩ := kv
    simp only [mapKeys, List.map_cons, List.nodup_cons] at hnd
    rw [List.foldl_cons, mapSet_append_of_not_mem acc k v
      (hdisj k (by simp [mapKeys]))]
    rw [ih (acc ++ [(k, v)]) hnd.2 ?_]
    · simp
    · intro k' hk'
      simp only [mapKeys] at hk'
      have h1 : k' ∉ mapKeys acc := hdisj k' (by simp [mapKeys, hk'])
      have h2 : k' ≠ k := fun hx => hnd.1 (hx ▸ hk')
      simp only [mapKeys] at h1 ⊢
      simp [List.map_append, h1, h2]

theorem flattenJson_strOf (m : List (String × String)) :
    ∀ r, flattenJson (strOf m) [] r
      = m.foldl (fun a kv => mapSet a kv.1 kv.2) r := by
  induction m with
  | nil => intro r; simp [strOf, flattenJson]
  | cons kv rest ih =>
    intro r
    obtain ⟨k, v⟩ := kv
    simp only [strOf, List.map_cons, flattenJson, joinKey, List.isEmpty_nil,
      if_pos, List.foldl_cons]
    exact ih (mapSet r k v)

/-- C3: taking every dotted-key entry of `flatten(T)`, in order, and
applying it via `setValue` onto an initially empty tree yields a tree whose
`flatten` output equals `flatten(T)`. -/
theorem flatten_roundTrip (o : Obj) : flatten (roundTrip o) = flatten o := by
  have hnodup : (mapKeys (flatten o)).Nodup :=
    nodup_mapKeys_flattenJson o [] [] (by simp [mapKeys])
  have h1 : roundTrip o = strOf (flatten o) := by
    have h2 := foldl_setValue_strOf (flatten o) []
    rw [roundTrip]
    rw [show (strOf [] : Obj) = [] from rfl] at h2
    rw [h2, foldl_mapSet_fresh (flatten o) [] hnodup (by simp [mapKeys])]
    simp
  rw [h1]
  show flattenJson (strOf (flatten o)) [] [] = flatten o
  rw [flattenJson_strOf,
    foldl_mapSet_fresh (flatten o) [] hnodup (by simp [mapKeys])]
  simp

theorem objFind_objSet (o : Obj) (k : String) (v : TNode) :
    objFind (objSet o k v) k = some v := by
  induction o with
  | nil => simp [objSet, objFind]
  | cons kv rest ih =>
    obtain ⟨k', v'⟩ := kv
    by_cases h : k' = k
    · simp [objSet, objFind, h]
    · simp [objSet, objFind, h, ih]

theorem isFlat_objSet_str (o : Obj) (k v : String) (h : isFlat o = true) :
    isFlat (objSet o k (.str v)) = true := by
  induction o with
  | nil => rfl
  | cons kv rest ih =>
    obtain ⟨k', v'⟩ := kv
    simp only [isFlat, List.all_cons, Bool.and_eq_true] at h
    by_cases hk : k' = k
    · simp [objSet, hk, isFlat, List.all_cons, h.2]
    · simp only [objSet, if_neg hk, isFlat, List.all_cons, Bool.and_eq_true]
      exact ⟨h.1, ih h.2⟩

theorem isFlat_objSet_obj (o : Obj) (k : String) (c : Obj) :
    isFlat (objSet o k (.obj c)) = false := by
  induction o with
  | nil => rfl
  | cons kv rest ih =>
    obtain ⟨k', v'⟩ := kv
    by_cases hk : k' = k
    · simp [objSet, hk, isFlat, List.all_cons]
    · simp only [objSet, if_neg hk, isFlat, List.all_cons]
      simp only [isFlat] at ih
      simp [ih]

theorem splitDotAux_ne_nil : ∀ (cs cur : List Char), splitDotAux cs cur ≠ [] := by
  intro cs
  induction cs with
  | nil => intro cur; simp [splitDotAux]
  | cons c rest ih =>
    intro cur
    by_cases h : c = '.'
    · simp [splitDotAux, h]
    · simp only [splitDotAux, if_neg h]
      exact ih (c :: cur)

theorem splitDot_ne_nil (s : String) : splitDot s ≠ [] := by
  simp [splitDot, splitDotAux_ne_nil]

theorem splitDotAux_singleton :
    ∀ (cs cur : List Char) (x : List Char),
      splitDotAux cs cur = [x] → x = cur.reverse ++ cs := by
  intro cs
  induction cs with
  | nil => intro cur x h; simp [splitDotAux] at h; simp [h]
  | cons c rest ih =>
    intro cur x h
    by_cases hc : c = '.'
    · rw [splitDotAux, if_pos hc] at h
      exact absurd (List.cons.inj h).2 (splitDotAux_ne_nil rest [])
    · rw [splitDotAux, if_neg hc] at h
      have := ih (c :: cur) x h
      simpa using this

theorem splitDot_singleton (s : String) (x : String)
    (h : splitDot s = [x]) : x = s := by
  rw [splitDot] at h
  rcases haux : splitDotAux s.toList [] with _ | ⟨xc, rest⟩
  · exact absurd haux (splitDotAux_ne_nil _ _)
  · rw [haux] at h
    rcases rest with _ | ⟨y, ys⟩
    · simp only [List.map_cons, List.map_nil] at h
      have hx : x = String.mk xc := ((List.cons.inj h).1).symm
      have hxc : xc = List.reverse [] ++ s.toList :=
        splitDotAux_singleton s.toList [] xc haux
      simp only [List.reverse_nil, List.nil_append] at hxc
      rw [hx, hxc]
      rfl
    · simp at h

theorem getJsonValue_setJsonValue :
    ∀ (ks : List String) (o : Obj) (v : String), ks ≠ [] →
      getJsonValue (setJsonValue o ks (.str v)) ks = some v := by
  intro ks
  induction ks with
  | nil => intro o v h; exact absurd rfl h
  | cons k rest ih =>
    intro o v _h
    cases rest with
    | nil => simp [setJsonValue, getJsonValue, objFind_objSet]
    | cons r rs =>
      simp only [setJsonValue, getJsonValue, objFind_objSet]
      exact ih _ v (by simp)

/-- C10: reading a key immediately after writing it returns exactly the
written value, on flat and nested trees alike, whether or not intermediate
mapping nodes (or colliding non-mapping nodes) existed along the path. -/
theorem getValue_setValue (o : Obj) (key value : String) :
    getValue (setValue o key value) key = ⟨key, value⟩ := by
  by_cases hf : isFlat o
  · rw [setValue, if_pos hf]
    rw [getValue, if_pos (isFlat_objSet_str o key value hf), objFind_objSet]
  · rw [setValue, if_neg hf]
    rcases hsplit : splitDot key with _ | ⟨a, rest⟩
    · exact absurd hsplit (splitDot_ne_nil key)
    rcases rest with _ | ⟨b, rs⟩
    · have ha : a = key := splitDot_singleton key a hsplit
      subst ha
      show getValue (objSet o a (.str value)) a = ⟨a, value⟩
      by_cases hf2 : isFlat (objSet o a (.str value))
      · rw [getValue, if_pos hf2, objFind_objSet]
      · rw [getValue, if_neg hf2, hsplit]
        simp [getJsonValue, objFind_objSet]
    · have hnf : isFlat (setJsonValue o (a :: b :: rs) (.str value)) = false := by
        simp only [setJsonValue]
        exact isFlat_objSet_obj o a _
      rw [getValue, if_neg (by simp [hnf]), hsplit,
        getJsonValue_setJsonValue (a :: b :: rs) o value (by simp)]
      rfl

theorem not_resolves_nil (o : Obj) (s : String) : ¬ Resolves o [] s := by
  intro h
  cases h

theorem getJsonValue_iff_resolves :
    ∀ (ks : List String) (o : Obj) (s : String),
      getJsonValue o ks = some s ↔ Resolves o ks s := by
  intro ks
  induction ks with
  | nil =>
    intro o s
    constructor
    · intro h; simp [getJsonValue] at h
    · intro h; exact absurd h (not_resolves_nil o s)
  | cons k rest ih =>
    intro o s
    cases rest with
    | nil =>
      constructor
      · intro h
        cases hfind : objFind o k with
        | none => simp [getJsonValue, hfind] at h
        | some t =>
          cases t with
          | str sv =>
            simp only [getJsonValue, hfind, Option.some.injEq] at h
            exact h ▸ Resolves.leaf hfind
          | obj c => simp [getJsonValue, hfind] at h
      · intro h
        cases h with
        | leaf hfind => simp [getJsonValue, hfind]
        | node hfind hres => exact absurd hres (not_resolves_nil _ _)
    | cons r rs =>
      constructor
      · intro h
        cases hfind : objFind o k with
        | none => simp [getJsonValue, hfind] at h
        | some t =>
          cases t with
          | str sv => simp [getJsonValue, hfind] at h
          | obj c =>
            refine Resolves.node hfind ((ih c s).mp ?_)
            simpa [getJsonValue, hfind] using h
      · intro h
        cases h with
        | node hfind hres =>
          simp only [getJsonValue, hfind]
          exact (ih _ s).mpr hres

/-- C6: `getValue` is total and characterized by path resolution: whenever
the key's path (the literal key on a flat tree, the dot-split segments
otherwise) resolves through mapping nodes to a string leaf, the leaf is
returned; otherwise — missing segment, non-mapping intermediate node, or
non-string final node — the absence marker `""` is returned instead of an
exception being raised. -/
theorem getValue_resolution (o : Obj) (key : String) :
    (∀ s, Resolves o (pathOf o key) s → getValue o key = ⟨key, s⟩) ∧
    ((∀ s, ¬ Resolves o (pathOf o key) s) → getValue o key = ⟨key, ""⟩) := by
  by_cases hf : isFlat o
  · constructor
    · intro s hres
      rw [pathOf, if_pos hf] at hres
      cases hres with
      | leaf hfind => rw [getValue, if_pos hf, hfind]
      | node hfind hres' => exact absurd hres' (not_resolves_nil _ _)
    · intro habs
      rw [pathOf, if_pos hf] at habs
      rw [getValue, if_pos hf]
      cases hfind : objFind o key with
      | none => rfl
      | some t =>
        cases t with
        | str sv => exact absurd (Resolves.leaf hfind) (habs sv)
        | obj c => rfl
  · constructor
    · intro s hres
      rw [pathOf, if_neg hf] at hres
      rw [getValue, if_neg hf,
        (getJsonValue_iff_resolves (splitDot key) o s).mpr hres]
      rfl
    · intro habs
      rw [pathOf, if_neg hf] at habs
      rw [getValue, if_neg hf]
      cases hres : getJsonValue o (splitDot key) with
      | none => rfl
      | some sv =>
        exact absurd ((getJsonValue_iff_resolves _ o sv).mp hres) (habs sv)

/-- Concrete instance of C6: resolving `"a.b"` through a nested mapping
node, and absence on a missing path. -/
theorem getValue_resolution_witness :
    getValue [("a", TNode.obj [("b", TNode.str "x")])] "a.b" = ⟨"a.b", "x"⟩ ∧
    getValue [("a", TNode.obj [("b", TNode.str "x")])] "a.z" = ⟨"a.z", ""⟩ :=
  ⟨(getValue_resolution [("a", TNode.obj [("b", TNode.str "x")])] "a.b").1 "x"
      (by
        have hp : pathOf [("a", TNode.obj [("b", TNode.str "x")])] "a.b"
            = ["a", "b"] := rfl
        rw [hp]
        exact Resolves.node rfl (Resolves.leaf rfl)),
   (getValue_resolution [("a", TNode.obj [("b", TNode.str "x")])] "a.z").2
      (by
        intro s hres
        have hp : pathOf [("a", TNode.obj [("b", TNode.str "x")])] "a.z"
            = ["a", "z"] := rfl
        rw [hp] at hres
        rw [← getJsonValue_iff_resolves] at hres
        exact Option.noConfusion ((rfl :
          getJsonValue [("a", TNode.obj [("b", TNode.str "x")])] ["a", "z"]
            = none) ▸ hres))⟩

end GenTranslate
